import Mathlib

/-!
Shallow embedding of `src/src/mix.rs` (`PPCAMix`, the mixture orchestration and
numerically-stable inference engine of `ppca_rs`) over the real numbers, with
the spec's external collaborators (single PPCA component, dataset/sample
containers) modelled from the spec's §6 contract.  `f64` arithmetic is
idealized as `ℝ`; Rust panics (asserts, out-of-bounds indexing, `expect`)
become `Option.none`.
-/

namespace PpcaRs

noncomputable section

/-- Embeds `nalgebra`'s `DVector::max` on a non-empty vector (`0` is an unreachable
default for the empty vector, on which the source panics; every use below is
guarded). -/
def listMax : List ℝ → ℝ
  | [] => 0
  | x :: xs => xs.foldl max x

/-- Embeds `DVector::max` with the empty-vector panic made explicit as `none`. -/
def listMaxOpt : List ℝ → Option ℝ
  | [] => none
  | x :: xs => some (xs.foldl max x)

/-- Embeds `robust_log_softmax` (mix.rs, lines 9-13): subtract the maximum, take the
log of the sum of exponentials, and shift each entry. -/
def robust_log_softmax (data : List ℝ) : List ℝ :=
  let m := listMax data
  let log_norm := Real.log ((data.map fun xi => Real.exp (xi - m)).sum)
  data.map fun xi => xi - m - log_norm

/-- Embeds `robust_log_softnorm` (mix.rs, lines 16-20): the stabilized log-sum-exp. -/
def robust_log_softnorm (data : List ℝ) : ℝ :=
  let m := listMax data
  let log_norm := Real.log ((data.map fun xi => Real.exp (xi - m)).sum)
  m + log_norm

/-- The naive, un-stabilized log-softmax that the spec (§4.1) names as the
reference formula: `log-softmax(x)_i = x_i - log(Σ_j exp(x_j))`. -/
def naive_log_softmax (data : List ℝ) : List ℝ :=
  data.map fun xi => xi - Real.log ((data.map Real.exp).sum)

/-- The naive, un-stabilized log-sum-exp that the spec (§4.1) names as the
reference formula: `log-sum-exp(x) = log(Σ_j exp(x_j))`. -/
def naive_log_sum_exp (data : List ℝ) : ℝ :=
  Real.log ((data.map Real.exp).sum)

/-- Modelled from the spec: a partially-observed sample (`MaskedSample` of
`ppca_model.rs`, outside the core, spec §6): coordinates plus an observation
mask (`true` = observed). -/
structure MaskedSample where
  data : List ℝ
  mask : List Bool

/-- Modelled from the spec: "extracting the vector value treating unobserved
coordinates as a defined fill value" (fill `0`); spec §6. -/
def MaskedSample.masked_vector (s : MaskedSample) : List ℝ :=
  (s.data.zip s.mask).map fun p => if p.2 then p.1 else 0

/-- Modelled from the spec: "a sample supports being marked fully observed
from a plain vector"; spec §6. -/
def MaskedSample.unmasked (v : List ℝ) : MaskedSample :=
  ⟨v, v.map fun _ => true⟩

/-- Modelled from the spec: the dataset capability (spec §6): an ordered,
indexable collection of partially-observed samples carrying per-sample
weights. -/
structure Dataset where
  data : List MaskedSample
  weights : List ℝ

/-- Embeds `Dataset::len`: the number of samples. -/
def Dataset.len (d : Dataset) : ℕ := d.data.length

/-- Modelled from the spec: "producing a reweighted view (same samples,
externally supplied per-sample weights attached)"; spec §6. -/
def Dataset.with_weights (d : Dataset) (w : List ℝ) : Dataset := ⟨d.data, w⟩

/-- Modelled from the spec: the observable behaviour of a single PPCA
component (spec §6) apart from its own update routine: static descriptors,
per-sample log-likelihoods, posterior-mean (smooth) and imputed (extrapolate)
reconstructions, and the single-sample generator (taking the mask probability
and the generator's random draw). -/
structure PPCAModelCore where
  output_size : ℕ
  state_size : ℕ
  n_parameters : ℕ
  llks : Dataset → List ℝ
  smooth : Dataset → Dataset
  extrapolate : Dataset → Dataset
  sample_one : ℝ → ℝ → MaskedSample

/-- Modelled from the spec: a PPCA component (`PPCAModel`, spec §1 and §6),
out of scope of the core and hence represented extensionally: by the
observable behaviour it exhibits after each finite sequence of
weighted-dataset updates (`iterate` calls). -/
structure PPCAModel where
  run : List Dataset → PPCAModelCore

def PPCAModel.output_size (m : PPCAModel) : ℕ := (m.run []).output_size

def PPCAModel.state_size (m : PPCAModel) : ℕ := (m.run []).state_size

def PPCAModel.n_parameters (m : PPCAModel) : ℕ := (m.run []).n_parameters

def PPCAModel.llks (m : PPCAModel) (d : Dataset) : List ℝ := (m.run []).llks d

def PPCAModel.smooth (m : PPCAModel) (d : Dataset) : Dataset := (m.run []).smooth d

def PPCAModel.extrapolate (m : PPCAModel) (d : Dataset) : Dataset := (m.run []).extrapolate d

def PPCAModel.sample_one (m : PPCAModel) (p u : ℝ) : MaskedSample := (m.run []).sample_one p u

/-- Modelled from the spec: `iterate(weighted_dataset) -> updated component`
(spec §6): the updated component's behaviour is the original's after recording
one more update. -/
def PPCAModel.iterate (m : PPCAModel) (d : Dataset) : PPCAModel := ⟨fun h => m.run (d :: h)⟩

/-- A component with fixed observable behaviour (its update routine returns a
behaviourally identical component); used for concrete instances. -/
def PPCAModel.const (c : PPCAModelCore) : PPCAModel := ⟨fun _ => c⟩

/-- Rust's `Vec::dedup`: removes *consecutive* repeated elements
(mix.rs, line 39). -/
def dedupConsec : List ℕ → List ℕ
  | [] => []
  | [x] => [x]
  | x :: y :: rest => if x = y then dedupConsec (y :: rest) else x :: dedupConsec (y :: rest)

/-- Embeds the `PPCAMix` struct (mix.rs, lines 22-27). -/
structure PPCAMix where
  output_size : ℕ
  models : List PPCAModel
  log_weights : List ℝ

/-- Embeds `PPCAMix::new` (mix.rs, lines 30-51); the three `assert`s (non-empty
component list, matching weight count, all output sizes equal after
`dedup`) become `none`. -/
def PPCAMix.new (models : List PPCAModel) (log_weights : List ℝ) : Option PPCAMix :=
  if models.length = 0 then none
  else if ¬ models.length = log_weights.length then none
  else
    let unique_sizes := dedupConsec (models.map PPCAModel.output_size)
    if ¬ unique_sizes.length = 1 then none
    else some ⟨unique_sizes.headD 0, models, robust_log_softmax log_weights⟩

/-- Embeds `PPCAMix::llks` (mix.rs, lines 90-105).  The source's `llk[i]` indexing
panics out of range; the §6 contract (each component returns one
log-likelihood per sample) keeps every index in range, where `List.getD`
returns the indexed element.  `DVector` addition is `zipWith (+)` (the source
asserts equal lengths, guaranteed by the construction invariant). -/
def PPCAMix.llks (mix : PPCAMix) (dataset : Dataset) : List ℝ :=
  let llks := mix.models.map fun model => model.llks dataset
  (List.range dataset.len).map fun i =>
    robust_log_softnorm (List.zipWith (· + ·) (llks.map fun llk => llk.getD i 0) mix.log_weights)

/-- Embeds `PPCAMix::llk` (mix.rs, lines 107-109). -/
def PPCAMix.llk (mix : PPCAMix) (dataset : Dataset) : ℝ := (mix.llks dataset).sum

/-- The per-sample cluster log-posterior rows: the `rows` built by
`PPCAMix::infer_cluster` (mix.rs, lines 112-124) before `DMatrix::from_rows`,
and recomputed verbatim by `PPCAMix::iterate` (mix.rs, lines 175-186, which
never call `from_rows`). -/
def PPCAMix.logPosteriorRows (mix : PPCAMix) (dataset : Dataset) : List (List ℝ) :=
  let llks := mix.models.map fun model => model.llks dataset
  (List.range dataset.len).map fun i =>
    robust_log_softmax (List.zipWith (· + ·) (llks.map fun llk => llk.getD i 0) mix.log_weights)

/-- Embeds `PPCAMix::infer_cluster` (mix.rs, lines 111-127): the rows above,
assembled with `DMatrix::from_rows(&*rows)` (line 126), which panics
("at least one row must be given") when the dataset is empty — that panic
becomes `none`. -/
def PPCAMix.infer_cluster (mix : PPCAMix) (dataset : Dataset) : Option (List (List ℝ)) :=
  match mix.logPosteriorRows dataset with
  | [] => none
  | r :: rs => some (r :: rs)

/-- Componentwise sum of a list of vectors (`Iterator::sum` over `DVector`s,
which folds the elements from the left; the source never sums an empty
iterator on the paths modelled here). -/
def vecSum : List (List ℝ) → List ℝ
  | [] => []
  | v :: rest => rest.foldl (fun acc w => List.zipWith (· + ·) acc w) v

/-- Scalar times vector (`pi * smooth_i.masked_vector()`). -/
def scale (c : ℝ) (v : List ℝ) : List ℝ := v.map fun x => c * x

/-- Effectful map over a list in the `Option` monad (the mixture-level
traversals whose bodies can panic). -/
def optionMapList {α β : Type} (f : α → Option β) : List α → Option (List β)
  | [] => some []
  | a :: as => (f a).bind fun b => (optionMapList f as).map fun bs => b :: bs

/-- Embeds `PPCAMix::smooth` (mix.rs, lines 129-149).  NOTE: the source indexes the
per-*component* list `smooths` with the *sample* index `i`
(`posterior.iter().zip(&*smooths[i].data)`); the out-of-bounds panic this
causes whenever the dataset has more samples than components becomes `none`,
and `zip` truncates to the shorter operand otherwise. -/
def PPCAMix.smooth (mix : PPCAMix) (dataset : Dataset) : Option Dataset :=
  let smooths := mix.models.map fun model => model.smooth dataset
  (mix.infer_cluster dataset).bind fun clusters =>
    (optionMapList (fun i =>
        let posterior := (clusters.getD i []).map Real.exp
        (smooths.get? i).map fun si =>
          MaskedSample.unmasked
            (vecSum ((posterior.zip si.data).map fun p => scale p.1 p.2.masked_vector)))
      (List.range dataset.len)).map fun rows => ⟨rows, rows.map fun _ => 1⟩

/-- Embeds `PPCAMix::extrapolate` (mix.rs, lines 151-171): same blend as `smooth`,
with each component's extrapolated reconstruction, and the same
`exrapolated[i]` sample-index-into-component-list slip. -/
def PPCAMix.extrapolate (mix : PPCAMix) (dataset : Dataset) : Option Dataset :=
  let exrapolated := mix.models.map fun model => model.extrapolate dataset
  (mix.infer_cluster dataset).bind fun clusters =>
    (optionMapList (fun i =>
        let posterior := (clusters.getD i []).map Real.exp
        (exrapolated.get? i).map fun si =>
          MaskedSample.unmasked
            (vecSum ((posterior.zip si.data).map fun p => scale p.1 p.2.masked_vector)))
      (List.range dataset.len)).map fun rows => ⟨rows, rows.map fun _ => 1⟩

/-- The blend §4.5 of the spec prescribes for `smooth`: obtain the cluster
posterior rows of §4.4 and compute, for each sample `i`,
`Σ_k exp(posterior[i,k]) * component_k_smoothed_vector[i]` (stated from the
spec's words, for comparison with the source's `PPCAMix.smooth`). -/
def specSmooth (mix : PPCAMix) (dataset : Dataset) : Dataset :=
  let smooths := mix.models.map fun model => model.smooth dataset
  let clusters := mix.logPosteriorRows dataset
  let rows := (List.range dataset.len).map fun i =>
    let posterior := (clusters.getD i []).map Real.exp
    MaskedSample.unmasked
      (vecSum ((posterior.zip (smooths.map fun s => s.data.getD i ⟨[], []⟩)).map
        fun p => scale p.1 p.2.masked_vector))
  ⟨rows, rows.map fun _ => 1⟩

/-- The blend §4.5 of the spec prescribes for `extrapolate` (stated from the
spec's words, for comparison with the source's `PPCAMix.extrapolate`). -/
def specExtrapolate (mix : PPCAMix) (dataset : Dataset) : Dataset :=
  let exs := mix.models.map fun model => model.extrapolate dataset
  let clusters := mix.logPosteriorRows dataset
  let rows := (List.range dataset.len).map fun i =>
    let posterior := (clusters.getD i []).map Real.exp
    MaskedSample.unmasked
      (vecSum ((posterior.zip (exs.map fun s => s.data.getD i ⟨[], []⟩)).map
        fun p => scale p.1 p.2.masked_vector))
  ⟨rows, rows.map fun _ => 1⟩

/-- Modelled from the spec: the categorical draw of `rand`'s `WeightedIndex`
(§4.3): walk the weight list with a uniform draw `u` from `[0, total)`,
returning the first index whose cumulative weight exceeds `u`; saturates at
the last index. -/
def categorical : List ℝ → ℝ → ℕ
  | [], _ => 0
  | [_], _ => 0
  | w :: y :: ys, u => if u < w then 0 else categorical (y :: ys) (u - w) + 1

/-- An arbitrary fallback component for the (unreachable for constructed
mixtures) out-of-range component lookup in `sample`. -/
def defaultModel : PPCAModel :=
  ⟨fun _ => ⟨0, 0, 0, fun _ => [], id, id, fun _ _ => ⟨[], []⟩⟩⟩

/-- Embeds `PPCAMix::sample` (mix.rs, lines 78-88).  The ambient `thread_rng` state
is modelled as a stream `rng` of per-sample draws: a uniform draw in `[0, 1)`
for the categorical component choice (the linear-scale weights sum to 1 for
constructed mixtures), and the chosen component generator's own draw. -/
def PPCAMix.sample (mix : PPCAMix) (dataset_size : ℕ) (mask_probability : ℝ)
    (rng : ℕ → ℝ × ℝ) : Dataset :=
  let rows := (List.range dataset_size).map fun j =>
    let model_idx := categorical (mix.log_weights.map Real.exp) (rng j).1
    (mix.models.getD model_idx defaultModel).sample_one mask_probability (rng j).2
  ⟨rows, rows.map fun _ => 1⟩

/-- The per-component responsibility column of `PPCAMix::iterate`
(mix.rs, line 194): the sample-wise log-posteriors of component `i`, read from
the rows that lines 180-186 recompute (no `DMatrix::from_rows` on this path). -/
def PPCAMix.posteriorColumn (mix : PPCAMix) (dataset : Dataset) (i : ℕ) : List ℝ :=
  (mix.logPosteriorRows dataset).map fun lp => lp.getD i 0

/-- The unnormalized linear responsibilities of component `i`
(mix.rs, lines 203-208): `exp(log_posterior[j,i] - max_posterior)`. -/
def PPCAMix.unnormPosteriors (mix : PPCAMix) (dataset : Dataset) (i : ℕ) : List ℝ :=
  (mix.posteriorColumn dataset i).map fun p =>
    Real.exp (p - listMax (mix.posteriorColumn dataset i))

/-- Embeds `PPCAMix::iterate` (mix.rs, lines 173-222).  The
`expect("dataset not empty")` on the maximum of an empty responsibility list
becomes `none`; over `ℝ` the `NotNan` filtering keeps every entry. -/
def PPCAMix.iterate (mix : PPCAMix) (dataset : Dataset) : Option PPCAMix :=
  (optionMapList (fun p =>
      let log_posteriors := mix.posteriorColumn dataset p.1
      (listMaxOpt log_posteriors).map fun max_posterior =>
        let unnorm_posteriors := log_posteriors.map fun q => Real.exp (q - max_posterior)
        let logsum_posteriors := Real.log unnorm_posteriors.sum + max_posterior
        (p.2.iterate (dataset.with_weights unnorm_posteriors), logsum_posteriors))
    mix.models.enum).map fun pairs =>
    ⟨mix.output_size, pairs.map Prod.fst, robust_log_softmax (pairs.map Prod.snd)⟩

/-- Embeds `PPCAMix::to_canonical` (mix.rs, lines 224-230); it keeps the output size and
log-weights; the component-level canonicalization is out of scope (spec §1). -/
def PPCAMix.to_canonical (mix : PPCAMix) : PPCAMix :=
  ⟨mix.output_size, mix.models, mix.log_weights⟩

/-! ### Helper lemmas on maxima, sums and the stabilizers -/

lemma foldl_max_mem (x : ℝ) (xs : List ℝ) : xs.foldl max x ∈ x :: xs := by
  induction xs generalizing x with
  | nil => simp
  | cons y ys ih =>
    have h := ih (max x y)
    rw [List.foldl_cons]
    rcases List.mem_cons.1 h with h1 | h1
    · rcases max_choice x y with h2 | h2 <;> rw [h1, h2] <;> simp
    · exact List.mem_cons_of_mem _ (List.mem_cons_of_mem _ h1)

lemma le_foldl_max (x : ℝ) (xs : List ℝ) : ∀ y ∈ x :: xs, y ≤ xs.foldl max x := by
  induction xs generalizing x with
  | nil => intro y hy; rw [List.mem_singleton] at hy; simp [hy]
  | cons z zs ih =>
    intro y hy
    rw [List.foldl_cons]
    have hbase : ∀ w, w ≤ max x z → w ≤ zs.foldl max (max x z) :=
      fun w hw => le_trans hw (ih (max x z) _ (List.mem_cons_self _ _))
    rcases List.mem_cons.1 hy with h1 | h1
    · exact h1 ▸ hbase x (le_max_left _ _)
    · rcases List.mem_cons.1 h1 with h2 | h2
      · exact h2 ▸ hbase z (le_max_right _ _)
      · exact ih (max x z) _ (List.mem_cons_of_mem _ h2)

lemma listMax_mem (l : List ℝ) (h : l ≠ []) : listMax l ∈ l := by
  cases l with
  | nil => exact absurd rfl h
  | cons x xs => exact foldl_max_mem x xs

lemma le_listMax (l : List ℝ) : ∀ y ∈ l, y ≤ listMax l := by
  cases l with
  | nil => intro y hy; simp at hy
  | cons x xs => exact fun y hy => le_foldl_max x xs y hy

lemma listMaxOpt_eq (l : List ℝ) (h : l ≠ []) : listMaxOpt l = some (listMax l) := by
  cases l with
  | nil => exact absurd rfl h
  | cons x xs => rfl

lemma sum_exp_pos (l : List ℝ) (h : l ≠ []) : 0 < (l.map Real.exp).sum := by
  refine List.sum_pos _ (fun x hx => ?_) (by simpa using h)
  rcases List.mem_map.1 hx with ⟨a, _, rfl⟩
  exact Real.exp_pos a

lemma sum_exp_shift_pos (l : List ℝ) (c : ℝ) (h : l ≠ []) :
    0 < (l.map fun x => Real.exp (x - c)).sum := by
  refine List.sum_pos _ (fun x hx => ?_) (by simpa using h)
  rcases List.mem_map.1 hx with ⟨a, _, rfl⟩
  exact Real.exp_pos _

/-- The max-shifted log-normalizer equals the naive one minus the maximum. -/
lemma log_norm_shift (l : List ℝ) (h : l ≠ []) (c : ℝ) :
    Real.log ((l.map fun x => Real.exp (x - c)).sum) =
      Real.log ((l.map Real.exp).sum) - c := by
  have h1 : (l.map fun x => Real.exp (x - c)).sum = (l.map Real.exp).sum * Real.exp (-c) := by
    simp only [sub_eq_add_neg, Real.exp_add]
    exact List.sum_map_mul_right l Real.exp (Real.exp (-c))
  rw [h1, Real.log_mul (ne_of_gt (sum_exp_pos l h)) (ne_of_gt (Real.exp_pos _)),
    Real.log_exp, sub_eq_add_neg]

lemma robust_log_softmax_eq_naive (l : List ℝ) (h : l ≠ []) :
    robust_log_softmax l = naive_log_softmax l := by
  simp only [robust_log_softmax, naive_log_softmax, log_norm_shift l h]
  exact List.map_congr_left fun a _ => by ring

lemma robust_log_softnorm_eq_naive (l : List ℝ) (h : l ≠ []) :
    robust_log_softnorm l = naive_log_sum_exp l := by
  simp only [robust_log_softnorm, naive_log_sum_exp, log_norm_shift l h]
  ring

/-- The linear-scale entries of a stabilized log-softmax sum to `1`. -/
lemma sum_exp_robust_log_softmax (l : List ℝ) (h : l ≠ []) :
    ((robust_log_softmax l).map Real.exp).sum = 1 := by
  rw [robust_log_softmax_eq_naive l h]
  have hS : 0 < (l.map Real.exp).sum := sum_exp_pos l h
  have h1 : (naive_log_softmax l).map Real.exp =
      l.map fun xi => Real.exp xi * ((l.map Real.exp).sum)⁻¹ := by
    simp only [naive_log_softmax, List.map_map]
    refine List.map_congr_left fun a _ => ?_
    simp only [Function.comp_apply, Real.exp_sub, Real.exp_log hS, div_eq_mul_inv]
  rw [h1, List.sum_map_mul_right, mul_inv_cancel₀ (ne_of_gt hS)]

/-- Every entry of a stabilized log-softmax is a log-probability (`≤ 0`). -/
lemma robust_log_softmax_nonpos (l : List ℝ) (h : l ≠ []) :
    ∀ y ∈ robust_log_softmax l, y ≤ 0 := by
  rw [robust_log_softmax_eq_naive l h]
  intro y hy
  rcases List.mem_map.1 hy with ⟨a, ha, rfl⟩
  have hS : 0 < (l.map Real.exp).sum := sum_exp_pos l h
  have hle : Real.exp a ≤ (l.map Real.exp).sum :=
    List.single_le_sum (fun x hx => by
        rcases List.mem_map.1 hx with ⟨b, _, rfl⟩
        exact le_of_lt (Real.exp_pos b)) _
      (List.mem_map.2 ⟨a, ha, rfl⟩)
  have := (Real.le_log_iff_exp_le hS).2 hle
  linarith

lemma getD_range_map {α : Type} (g : ℕ → α) (n i : ℕ) (d : α) (h : i < n) :
    ((List.range n).map g).getD i d = g i := by
  rw [List.getD_eq_getElem _ _ (by simpa using h)]
  simp

lemma zipWith_ne_nil {α β γ : Type} (f : α → β → γ) (l1 : List α) (l2 : List β)
    (h1 : l1 ≠ []) (h2 : l2 ≠ []) : List.zipWith f l1 l2 ≠ [] := by
  cases l1 with
  | nil => exact absurd rfl h1
  | cons a as =>
    cases l2 with
    | nil => exact absurd rfl h2
    | cons b bs => simp

lemma optionMapList_eq_map {α β : Type} (f : α → Option β) (g : α → β) :
    ∀ l : List α, (∀ a ∈ l, f a = some (g a)) → optionMapList f l = some (l.map g) := by
  intro l
  induction l with
  | nil => intro _; rfl
  | cons a as ih =>
    intro h
    have ha := h a (List.mem_cons_self _ _)
    have has := ih fun b hb => h b (List.mem_cons_of_mem _ hb)
    simp [optionMapList, ha, has]

lemma optionMapList_length {α β : Type} (f : α → Option β) :
    ∀ (l : List α) (ys : List β), optionMapList f l = some ys → ys.length = l.length := by
  intro l
  induction l with
  | nil =>
    intro ys h
    simp only [optionMapList, Option.some.injEq] at h
    simp [← h]
  | cons a as ih =>
    intro ys h
    simp only [optionMapList] at h
    rcases hfa : f a with _ | b
    · simp [hfa] at h
    · rcases hrec : optionMapList f as with _ | bs
      · simp [hfa, hrec] at h
      · simp [hfa, hrec] at h
        simp [← h, ih bs hrec]

/-! ### dedup lemmas -/

lemma dedupConsec_ne_nil : ∀ l : List ℕ, l ≠ [] → dedupConsec l ≠ [] := by
  intro l
  induction l using dedupConsec.induct with
  | case1 => intro h; exact absurd rfl h
  | case2 x => intro _; simp [dedupConsec]
  | case3 y rest ih => intro _; simpa [dedupConsec] using ih (by simp)
  | case4 x y rest hne ih => intro _; simp [dedupConsec, hne]

lemma dedupConsec_of_const (s : ℕ) :
    ∀ l : List ℕ, l ≠ [] → (∀ x ∈ l, x = s) → dedupConsec l = [s] := by
  intro l
  induction l using dedupConsec.induct with
  | case1 => intro h _; exact absurd rfl h
  | case2 x => intro _ h; simp [dedupConsec, h x (by simp)]
  | case3 y rest ih =>
    intro _ h
    simp only [dedupConsec, if_pos rfl]
    exact ih (by simp) fun z hz => h z (List.mem_cons_of_mem _ hz)
  | case4 x y rest hne ih =>
    intro _ h
    exact absurd ((h x (by simp)).trans (h y (by simp)).symm) hne

lemma dedupConsec_length_one :
    ∀ l : List ℕ, (dedupConsec l).length = 1 → ∃ s, l ≠ [] ∧ ∀ x ∈ l, x = s := by
  intro l
  induction l using dedupConsec.induct with
  | case1 => intro h; simp [dedupConsec] at h
  | case2 x => intro _; exact ⟨x, by simp, by simp⟩
  | case3 y rest ih =>
    intro h
    simp only [dedupConsec, if_pos rfl] at h
    rcases ih h with ⟨s, _, hs⟩
    refine ⟨s, by simp, fun z hz => ?_⟩
    rcases List.mem_cons.1 hz with h1 | h1
    · exact h1 ▸ hs y (by simp)
    · exact hs z h1
  | case4 x y rest hne ih =>
    intro h
    simp only [dedupConsec, if_neg hne] at h
    simp only [List.length_cons] at h
    have h0 : (dedupConsec (y :: rest)).length = 0 := by omega
    exact absurd (List.length_eq_zero.1 h0) (dedupConsec_ne_nil (y :: rest) (by simp))

/-! ### Concrete components, mixtures, datasets and evaluation lemmas -/

/-- A one-dimensional component: log-likelihood `0` for every sample, and both
reconstructions of every sample equal to `[0]`; its generator emits `[0]`. -/
def coreZero : PPCAModelCore where
  output_size := 1
  state_size := 1
  n_parameters := 3
  llks := fun d => List.replicate d.len 0
  smooth := fun d => ⟨d.data.map fun _ => MaskedSample.unmasked [0], d.data.map fun _ => 1⟩
  extrapolate := fun d => ⟨d.data.map fun _ => MaskedSample.unmasked [0], d.data.map fun _ => 1⟩
  sample_one := fun _ _ => MaskedSample.unmasked [0]

/-- A one-dimensional component: log-likelihood `0` for every sample, and both
reconstructions of every sample equal to `[2]`; its generator emits `[2]`. -/
def coreTwo : PPCAModelCore where
  output_size := 1
  state_size := 1
  n_parameters := 3
  llks := fun d => List.replicate d.len 0
  smooth := fun d => ⟨d.data.map fun _ => MaskedSample.unmasked [2], d.data.map fun _ => 1⟩
  extrapolate := fun d => ⟨d.data.map fun _ => MaskedSample.unmasked [2], d.data.map fun _ => 1⟩
  sample_one := fun _ _ => MaskedSample.unmasked [2]

def modelZero : PPCAModel := PPCAModel.const coreZero

def modelTwo : PPCAModel := PPCAModel.const coreTwo

/-- The two-component mixture built from raw log-weights `[0, 0]`. -/
def mixPair : PPCAMix := ⟨1, [modelZero, modelTwo], robust_log_softmax [0, 0]⟩

/-- The single-component mixture built from raw log-weight `[0]`. -/
def mixSolo : PPCAMix := ⟨1, [modelZero], robust_log_softmax [0]⟩

/-- A fully observed one-sample dataset. -/
def dsOne : Dataset := ⟨[MaskedSample.unmasked [5]], [1]⟩

/-- A fully observed two-sample dataset. -/
def dsTwo : Dataset := ⟨[MaskedSample.unmasked [5], MaskedSample.unmasked [7]], [1, 1]⟩

/-- One ambient-randomness stream: categorical draw `0` for every sample. -/
def rngA : ℕ → ℝ × ℝ := fun _ => (0, 0)

/-- Another ambient-randomness stream: categorical draw `3/4` for every sample. -/
def rngB : ℕ → ℝ × ℝ := fun _ => (3 / 4, 0)

/-- A stream agreeing with `rngA` on index `0` only. -/
def rngC : ℕ → ℝ × ℝ := fun j => if j = 0 then (0, 0) else (1, 1)

lemma exp_neg_log_two : Real.exp (-Real.log 2) = 1 / 2 := by
  rw [Real.exp_neg, Real.exp_log] <;> norm_num

lemma robust_log_softmax_pair_zero :
    robust_log_softmax [(0 : ℝ), 0] = [-Real.log 2, -Real.log 2] := by
  norm_num [robust_log_softmax, listMax, Real.exp_zero]

lemma robust_log_softmax_pair_negs :
    robust_log_softmax [-Real.log 2, -Real.log 2] = [-Real.log 2, -Real.log 2] := by
  norm_num [robust_log_softmax, listMax, Real.exp_zero]

lemma logPosteriorRows_pair :
    PPCAMix.logPosteriorRows mixPair dsOne = [[-Real.log 2, -Real.log 2]] := by
  simp [PPCAMix.logPosteriorRows, mixPair, dsOne, Dataset.len, modelZero, modelTwo,
    PPCAModel.const, PPCAModel.llks, coreZero, coreTwo,
    robust_log_softmax_pair_zero, robust_log_softmax_pair_negs]

lemma infer_cluster_pair :
    PPCAMix.infer_cluster mixPair dsOne = some [[-Real.log 2, -Real.log 2]] := by
  simp [PPCAMix.infer_cluster, logPosteriorRows_pair]

/-! ### Claim theorems -/

/-- C1: evaluation of the code at a failing input.  For the two-component
mixture `mixPair` (components reconstruct the single sample as `[0]` and `[2]`,
equal weights) and the one-sample dataset `dsOne`, the source's `smooth` and
`extrapolate` return `[0]` (they zip the cluster posterior against
`smooths[i].data`, the *sample*-indexed entry of the per-component list, and
truncate), whereas the blend claimed — `Σ_k exp(posterior[i,k]) ·
component_k's reconstruction of sample i` — gives `[1]`; the two disagree. -/
theorem claim_C1 :
    PPCAMix.smooth mixPair dsOne = some ⟨[MaskedSample.unmasked [0]], [1]⟩ ∧
    specSmooth mixPair dsOne = ⟨[MaskedSample.unmasked [1]], [1]⟩ ∧
    PPCAMix.smooth mixPair dsOne ≠ some (specSmooth mixPair dsOne) ∧
    PPCAMix.extrapolate mixPair dsOne = some ⟨[MaskedSample.unmasked [0]], [1]⟩ ∧
    specExtrapolate mixPair dsOne = ⟨[MaskedSample.unmasked [1]], [1]⟩ ∧
    PPCAMix.extrapolate mixPair dsOne ≠ some (specExtrapolate mixPair dsOne) := by
  have h1 : PPCAMix.smooth mixPair dsOne = some ⟨[MaskedSample.unmasked [0]], [1]⟩ := by
    simp only [PPCAMix.smooth, infer_cluster_pair]
    simp [mixPair, dsOne, Dataset.len, modelZero, modelTwo, PPCAModel.const,
      PPCAModel.smooth, coreZero, coreTwo, optionMapList, vecSum, scale,
      MaskedSample.masked_vector, MaskedSample.unmasked]
  have h2 : specSmooth mixPair dsOne = ⟨[MaskedSample.unmasked [1]], [1]⟩ := by
    simp only [specSmooth, logPosteriorRows_pair]
    simp [mixPair, dsOne, Dataset.len, modelZero, modelTwo, PPCAModel.const,
      PPCAModel.smooth, coreZero, coreTwo, vecSum, scale, List.range_succ,
      MaskedSample.masked_vector, MaskedSample.unmasked, exp_neg_log_two]
  have h4 : PPCAMix.extrapolate mixPair dsOne = some ⟨[MaskedSample.unmasked [0]], [1]⟩ := by
    simp only [PPCAMix.extrapolate, infer_cluster_pair]
    simp [mixPair, dsOne, Dataset.len, modelZero, modelTwo, PPCAModel.const,
      PPCAModel.extrapolate, coreZero, coreTwo, optionMapList, vecSum, scale,
      MaskedSample.masked_vector, MaskedSample.unmasked]
  have h5 : specExtrapolate mixPair dsOne = ⟨[MaskedSample.unmasked [1]], [1]⟩ := by
    simp only [specExtrapolate, logPosteriorRows_pair]
    simp [mixPair, dsOne, Dataset.len, modelZero, modelTwo, PPCAModel.const,
      PPCAModel.extrapolate, coreZero, coreTwo, vecSum, scale, List.range_succ,
      MaskedSample.masked_vector, MaskedSample.unmasked, exp_neg_log_two]
  refine ⟨h1, h2, ?_, h4, h5, ?_⟩
  · rw [h1, h2]
    simp [MaskedSample.unmasked]
  · rw [h4, h5]
    simp [MaskedSample.unmasked]

/-- C2: evaluation of the code at a failing input.  For the one-component
mixture `mixSolo` and the two-sample dataset `dsTwo`, both `smooth` and
`extrapolate` panic (out-of-bounds `smooths[i]` for `i = 1` on a length-1
list) instead of returning a dataset of the input's size. -/
theorem claim_C2 :
    PPCAMix.smooth mixSolo dsTwo = none ∧ PPCAMix.extrapolate mixSolo dsTwo = none := by
  constructor
  · simp [PPCAMix.smooth, PPCAMix.infer_cluster, PPCAMix.logPosteriorRows, mixSolo,
      dsTwo, Dataset.len, modelZero, PPCAModel.const, PPCAModel.llks,
      PPCAModel.smooth, coreZero, optionMapList, List.range_succ]
  · simp [PPCAMix.extrapolate, PPCAMix.infer_cluster, PPCAMix.logPosteriorRows, mixSolo,
      dsTwo, Dataset.len, modelZero, PPCAModel.const, PPCAModel.llks,
      PPCAModel.extrapolate, coreZero, optionMapList, List.range_succ]

/-- C3: `PPCAMix::new` fails exactly when the component list is empty, or the
raw log-weight count differs from the component count, or the components'
output sizes are not all equal; on success the stored log-weights are the
log-softmax of the raw log-weights, the components are stored as given, and
the stored output size is the shared component output size. -/
theorem claim_C3 (models : List PPCAModel) (w : List ℝ) :
    (PPCAMix.new models w = none ↔
      models = [] ∨ models.length ≠ w.length ∨
        ¬ ∃ s, ∀ m ∈ models, PPCAModel.output_size m = s) ∧
    ∀ mix, PPCAMix.new models w = some mix →
      mix.log_weights = robust_log_softmax w ∧
      mix.models = models ∧
      ∀ m ∈ models, PPCAModel.output_size m = mix.output_size := by
  constructor
  · simp only [PPCAMix.new]
    split_ifs with h0 h1 h2
    · simp [List.length_eq_zero.1 h0]
    · have hne : models ≠ [] := fun h => h0 (by simp [h])
      rcases dedupConsec_length_one _ h2 with ⟨s, _, hs⟩
      simp only [false_iff]
      rintro (h | h | h)
      · exact hne h
      · exact h h1
      · exact h ⟨s, fun m hm => hs _ (List.mem_map.2 ⟨m, hm, rfl⟩)⟩
    · have hne : models ≠ [] := fun h => h0 (by simp [h])
      simp only [eq_self_iff_true, true_iff]
      right; right
      rintro ⟨s, hs⟩
      exact h2 (by
        rw [dedupConsec_of_const s (models.map PPCAModel.output_size)
          (fun h => hne (List.map_eq_nil_iff.1 h))
          (fun x hx => by rcases List.mem_map.1 hx with ⟨m, hm, rfl⟩; exact hs m hm)]
        rfl)
    · simp [h1]
  · intro mix hmix
    simp only [PPCAMix.new] at hmix
    split_ifs at hmix with h0 h1 h2
    rcases dedupConsec_length_one _ h2 with ⟨s, _, hs⟩
    have hd : dedupConsec (models.map PPCAModel.output_size) = [s] :=
      dedupConsec_of_const s _ (fun h => h0 (by simp [List.map_eq_nil_iff.1 h])) hs
    injection hmix with hmix
    refine ⟨by rw [← hmix], by rw [← hmix], fun m hm => ?_⟩
    rw [← hmix]
    simp only [hd, List.headD_cons]
    exact hs _ (List.mem_map.2 ⟨m, hm, rfl⟩)

/-- C3 witness: construction with no components fails; the one-component
construction stores the log-softmax of the raw log-weights. -/
theorem claim_C3_witness :
    PPCAMix.new ([] : List PPCAModel) ([] : List ℝ) = none ∧
    (PPCAMix.mk 1 [modelZero] (robust_log_softmax [0])).log_weights =
      robust_log_softmax [0] :=
  ⟨(claim_C3 [] []).1.mpr (Or.inl rfl),
   ((claim_C3 [modelZero] [0]).2 ⟨1, [modelZero], robust_log_softmax [0]⟩ rfl).1⟩

/-- C4: the linear-scale mixture log-weights sum to 1, both for every
successfully constructed mixture and after every successful `iterate` of a
mixture with at least one component. -/
theorem claim_C4 :
    (∀ (models : List PPCAModel) (w : List ℝ) (mix : PPCAMix),
        PPCAMix.new models w = some mix → (mix.log_weights.map Real.exp).sum = 1) ∧
    (∀ (mix : PPCAMix) (d : Dataset) (M : PPCAMix), mix.models ≠ [] →
        mix.iterate d = some M → (M.log_weights.map Real.exp).sum = 1) := by
  constructor
  · intro models w mix hmix
    simp only [PPCAMix.new] at hmix
    split_ifs at hmix with h0 h1 h2
    have hw : w ≠ [] := by
      intro hnil
      rw [hnil] at h1
      simp at h1
      exact h0 (by simp [h1])
    injection hmix with hmix
    rw [← hmix]
    exact sum_exp_robust_log_softmax w hw
  · intro mix d M hK hit
    simp only [PPCAMix.iterate] at hit
    rcases Option.map_eq_some'.1 hit with ⟨pairs, hpairs, hM⟩
    have hlen : pairs.length = mix.models.enum.length := optionMapList_length _ _ _ hpairs
    have hpne : pairs ≠ [] := by
      intro hnil
      rw [hnil] at hlen
      simp only [List.length_nil, List.enum_length] at hlen
      exact hK (List.length_eq_zero.1 hlen.symm)
    rw [← hM]
    exact sum_exp_robust_log_softmax _ (fun h => hpne (List.map_eq_nil_iff.1 h))

/-- C4 witness: the weight-sum invariant at a concrete construction and a
concrete iteration step. -/
theorem claim_C4_witness :
    (((PPCAMix.mk 1 [modelZero] (robust_log_softmax [0])).log_weights.map Real.exp).sum = 1) ∧
    ((((mixSolo.iterate dsOne).getD mixSolo).log_weights.map Real.exp).sum = 1) :=
  ⟨claim_C4.1 [modelZero] [0] _ rfl,
   claim_C4.2 mixSolo dsOne _ (by simp [mixSolo]) rfl⟩

/-- The inner map composition shared by `llks`, `infer_cluster` and
`iterate`: indexing the per-component log-likelihood table at sample `i`. -/
lemma llk_table_map (models : List PPCAModel) (dataset : Dataset) (i : ℕ) :
    ((models.map fun model => model.llks dataset).map fun llk => llk.getD i 0) =
      models.map fun m => (m.llks dataset).getD i 0 := by
  simp [List.map_map, Function.comp]

/-- C5: `llks` returns one value per sample, entry `i` being the log-sum-exp
over components of (component log-likelihood of sample `i` + mixture
log-weight), and `llk` is exactly the sum of the entries of `llks`. -/
theorem claim_C5 (mix : PPCAMix) (dataset : Dataset) (i : ℕ)
    (hK : mix.models ≠ []) (hW : mix.log_weights ≠ []) (hi : i < dataset.len) :
    (mix.llks dataset).getD i 0 =
      Real.log (((List.zipWith (· + ·)
          (mix.models.map fun m => (m.llks dataset).getD i 0) mix.log_weights).map
        Real.exp).sum) ∧
    mix.llk dataset = (mix.llks dataset).sum := by
  refine ⟨?_, rfl⟩
  simp only [PPCAMix.llks]
  rw [getD_range_map _ _ _ _ hi, llk_table_map]
  rw [robust_log_softnorm_eq_naive _ (zipWith_ne_nil _ _ _
    (fun h => hK (List.map_eq_nil_iff.1 h)) hW)]
  rfl

/-- C5 witness: the per-sample log-sum-exp shape at a concrete mixture and
dataset. -/
theorem claim_C5_witness :
    ((mixSolo.llks dsOne).getD 0 0 =
      Real.log (((List.zipWith (· + ·)
          (mixSolo.models.map fun m => (m.llks dsOne).getD 0 0) mixSolo.log_weights).map
        Real.exp).sum)) ∧
    mixSolo.llk dsOne = (mixSolo.llks dsOne).sum :=
  claim_C5 mixSolo dsOne 0 (by simp [mixSolo])
    (by simp [mixSolo, robust_log_softmax, listMax])
    (by simp [dsOne, Dataset.len])

/-- C6 counterexample: on the empty dataset, `infer_cluster` does not return
a (0-by-K) matrix: `DMatrix::from_rows` (mix.rs, line 126) requires at least
one row, so the source panics there, refuting the claim's "for every
dataset". -/
theorem claim_C6_counterexample :
    PPCAMix.infer_cluster mixSolo ⟨[], []⟩ = none := rfl

/-- C6 (amended): on every dataset with at least one sample, `infer_cluster`
succeeds and returns the dataset-size-long list of rows, where row `i` is the
log-softmax of the per-component log-likelihoods of sample `i` plus the
mixture log-weights; each row's linear-scale entries sum to 1 and every entry
is `≤ 0`.  (On the empty dataset it fails instead of returning an empty
matrix.) -/
theorem claim_C6 (mix : PPCAMix) (dataset : Dataset) (i : ℕ)
    (hK : mix.models ≠ []) (hW : mix.log_weights ≠ []) (hi : i < dataset.len) :
    mix.infer_cluster dataset = some (mix.logPosteriorRows dataset) ∧
    (mix.logPosteriorRows dataset).length = dataset.len ∧
    (mix.logPosteriorRows dataset).getD i [] =
      naive_log_softmax (List.zipWith (· + ·)
        (mix.models.map fun m => (m.llks dataset).getD i 0) mix.log_weights) ∧
    ((((mix.logPosteriorRows dataset).getD i []).map Real.exp).sum = 1) ∧
    ∀ y ∈ (mix.logPosteriorRows dataset).getD i [], y ≤ 0 := by
  have hlen : (mix.logPosteriorRows dataset).length = dataset.len := by
    simp [PPCAMix.logPosteriorRows]
  have hv : List.zipWith (· + ·)
      (mix.models.map fun m => (m.llks dataset).getD i 0) mix.log_weights ≠ [] :=
    zipWith_ne_nil _ _ _ (fun h => hK (List.map_eq_nil_iff.1 h)) hW
  have hrow : (mix.logPosteriorRows dataset).getD i [] =
      robust_log_softmax (List.zipWith (· + ·)
        (mix.models.map fun m => (m.llks dataset).getD i 0) mix.log_weights) := by
    simp only [PPCAMix.logPosteriorRows]
    rw [getD_range_map _ _ _ _ hi, llk_table_map]
  refine ⟨?_, hlen, ?_, ?_, ?_⟩
  · cases hrows : mix.logPosteriorRows dataset with
    | nil =>
      rw [hrows] at hlen
      simp at hlen
      omega
    | cons r rs => simp [PPCAMix.infer_cluster, hrows]
  · rw [hrow, robust_log_softmax_eq_naive _ hv]
  · rw [hrow]
    exact sum_exp_robust_log_softmax _ hv
  · rw [hrow]
    exact robust_log_softmax_nonpos _ hv

/-- C6 witness: success, the row shape, and the unit linear-scale row sum at
a concrete mixture and one-sample dataset. -/
theorem claim_C6_witness :
    (mixSolo.infer_cluster dsOne = some (mixSolo.logPosteriorRows dsOne)) ∧
    ((mixSolo.logPosteriorRows dsOne).getD 0 [] =
      naive_log_softmax (List.zipWith (· + ·)
        (mixSolo.models.map fun m => (m.llks dsOne).getD 0 0) mixSolo.log_weights)) ∧
    ((((mixSolo.logPosteriorRows dsOne).getD 0 []).map Real.exp).sum = 1) :=
  ⟨(claim_C6 mixSolo dsOne 0 (by simp [mixSolo])
      (by simp [mixSolo, robust_log_softmax, listMax]) (by simp [dsOne, Dataset.len])).1,
   (claim_C6 mixSolo dsOne 0 (by simp [mixSolo])
      (by simp [mixSolo, robust_log_softmax, listMax]) (by simp [dsOne, Dataset.len])).2.2.1,
   (claim_C6 mixSolo dsOne 0 (by simp [mixSolo])
      (by simp [mixSolo, robust_log_softmax, listMax]) (by simp [dsOne, Dataset.len])).2.2.2.1⟩

/-- C7: on every non-empty finite vector, the stabilized log-softmax and
log-sum-exp satisfy the max-subtraction formulas (with `m` the vector's
maximum) and coincide exactly with the naive un-stabilized formulas. -/
theorem claim_C7 (l : List ℝ) (h : l ≠ []) :
    listMax l ∈ l ∧ (∀ x ∈ l, x ≤ listMax l) ∧
    robust_log_softmax l =
      l.map (fun xi => xi - listMax l -
        Real.log ((l.map fun xj => Real.exp (xj - listMax l)).sum)) ∧
    robust_log_softnorm l =
      listMax l + Real.log ((l.map fun xj => Real.exp (xj - listMax l)).sum) ∧
    robust_log_softmax l = naive_log_softmax l ∧
    robust_log_softnorm l = naive_log_sum_exp l :=
  ⟨listMax_mem l h, le_listMax l, rfl, rfl,
   robust_log_softmax_eq_naive l h, robust_log_softnorm_eq_naive l h⟩

/-- C7 witness: the stabilized/naive agreement on the concrete vector `[0]`. -/
theorem claim_C7_witness :
    listMax [(0 : ℝ)] ∈ [(0 : ℝ)] ∧
    robust_log_softmax [(0 : ℝ)] = naive_log_softmax [(0 : ℝ)] ∧
    robust_log_softnorm [(0 : ℝ)] = naive_log_sum_exp [(0 : ℝ)] :=
  ⟨(claim_C7 [(0 : ℝ)] (by simp)).1,
   (claim_C7 [(0 : ℝ)] (by simp)).2.2.2.2.1,
   (claim_C7 [(0 : ℝ)] (by simp)).2.2.2.2.2⟩

/-- C8: on a non-empty dataset, `iterate` builds, for each component `k` with
maximum responsibility `m_k`, the per-sample weights
`exp(log_posterior[i,k] - m_k)` (of which at least one equals exactly `1`),
hands component `k` the dataset reweighted by them, records the log total
mass `log(Σ_i weights) + m_k`, and log-softmaxes the `K` recorded masses into
the new mixture log-weights. -/
theorem claim_C8 (mix : PPCAMix) (dataset : Dataset) (hn : 0 < dataset.len) :
    mix.iterate dataset = some
      ⟨mix.output_size,
        mix.models.enum.map fun p =>
          p.2.iterate (dataset.with_weights (mix.unnormPosteriors dataset p.1)),
        robust_log_softmax (mix.models.enum.map fun p =>
          Real.log (mix.unnormPosteriors dataset p.1).sum +
            listMax (mix.posteriorColumn dataset p.1))⟩ ∧
    ∀ k, (1 : ℝ) ∈ mix.unnormPosteriors dataset k := by
  have hlen : ∀ k, (mix.posteriorColumn dataset k).length = dataset.len := by
    intro k
    simp [PPCAMix.posteriorColumn, PPCAMix.logPosteriorRows]
  have hcol : ∀ k, mix.posteriorColumn dataset k ≠ [] := by
    intro k hnil
    have hl := hlen k
    rw [hnil] at hl
    simp at hl
    omega
  constructor
  · simp only [PPCAMix.iterate]
    rw [optionMapList_eq_map _ (fun p : ℕ × PPCAModel =>
        (p.2.iterate (dataset.with_weights (mix.unnormPosteriors dataset p.1)),
          Real.log (mix.unnormPosteriors dataset p.1).sum +
            listMax (mix.posteriorColumn dataset p.1))) _ ?_]
    · simp only [Option.map_some', Option.some.injEq, List.map_map, PPCAMix.mk.injEq]
      refine ⟨trivial, ?_, ?_⟩
      · exact List.map_congr_left fun p _ => rfl
      · exact congrArg robust_log_softmax (List.map_congr_left fun p _ => rfl)
    · intro p _
      rw [listMaxOpt_eq _ (hcol p.1)]
      simp only [Option.map_some']
      rfl
  · intro k
    refine List.mem_map.2 ⟨listMax (mix.posteriorColumn dataset k), listMax_mem _ (hcol k), ?_⟩
    rw [sub_self, Real.exp_zero]

/-- C8 witness: the iteration shape at a concrete mixture and one-sample
dataset, and a weight equal to `1` for its only component. -/
theorem claim_C8_witness :
    (mixSolo.iterate dsOne = some
      ⟨mixSolo.output_size,
        mixSolo.models.enum.map fun p =>
          p.2.iterate (dsOne.with_weights (mixSolo.unnormPosteriors dsOne p.1)),
        robust_log_softmax (mixSolo.models.enum.map fun p =>
          Real.log (mixSolo.unnormPosteriors dsOne p.1).sum +
            listMax (mixSolo.posteriorColumn dsOne p.1))⟩) ∧
    (1 : ℝ) ∈ mixSolo.unnormPosteriors dsOne 0 :=
  ⟨(claim_C8 mixSolo dsOne (by simp [dsOne, Dataset.len])).1,
   (claim_C8 mixSolo dsOne (by simp [dsOne, Dataset.len])).2 0⟩

/-- C9 counterexample: `sample` reads the ambient thread RNG, so two
invocations with identical arguments need not return equal results: with the
two-component mixture `mixPair`, the ambient draw streams `rngA` and `rngB`
select different components and yield different datasets. -/
theorem claim_C9_counterexample :
    mixPair.sample 1 0 rngA ≠ mixPair.sample 1 0 rngB := by
  have hA : mixPair.sample 1 0 rngA = ⟨[MaskedSample.unmasked [0]], [1]⟩ := by
    simp only [PPCAMix.sample, mixPair, rngA, robust_log_softmax_pair_zero]
    norm_num [categorical, exp_neg_log_two, modelZero, PPCAModel.const,
      PPCAModel.sample_one, coreZero, List.range_succ]
  have hB : mixPair.sample 1 0 rngB = ⟨[MaskedSample.unmasked [2]], [1]⟩ := by
    simp only [PPCAMix.sample, mixPair, rngB, robust_log_softmax_pair_zero]
    norm_num [categorical, exp_neg_log_two, modelTwo, PPCAModel.const,
      PPCAModel.sample_one, coreTwo, List.range_succ]
  rw [hA, hB]
  simp [MaskedSample.unmasked]

/-- C9 (amended): every operation is a pure function of the model and its
arguments and leaves the model unchanged; `sample` additionally reads the
ambient thread RNG and is deterministic once the draws it reads are fixed:
two streams agreeing on the first `dataset_size` draws yield equal samples. -/
theorem claim_C9 (mix : PPCAMix) (dataset : Dataset) (n : ℕ) (p : ℝ)
    (rng rng2 : ℕ → ℝ × ℝ) (hagree : ∀ j < n, rng j = rng2 j) :
    mix.sample n p rng = mix.sample n p rng2 ∧
    mix.llks dataset = mix.llks dataset ∧
    mix.llk dataset = mix.llk dataset ∧
    mix.infer_cluster dataset = mix.infer_cluster dataset ∧
    mix.smooth dataset = mix.smooth dataset ∧
    mix.extrapolate dataset = mix.extrapolate dataset ∧
    mix.iterate dataset = mix.iterate dataset := by
  refine ⟨?_, rfl, rfl, rfl, rfl, rfl, rfl⟩
  simp only [PPCAMix.sample]
  have hrows : ((List.range n).map fun j =>
      (mix.models.getD (categorical (mix.log_weights.map Real.exp) (rng j).1)
        defaultModel).sample_one p (rng j).2) =
      (List.range n).map fun j =>
        (mix.models.getD (categorical (mix.log_weights.map Real.exp) (rng2 j).1)
          defaultModel).sample_one p (rng2 j).2 :=
    List.map_congr_left fun j hj => by rw [hagree j (List.mem_range.1 hj)]
  rw [hrows]

/-- C9 witness: two ambient streams agreeing on the single draw that a
one-sample `sample` call reads produce equal results. -/
theorem claim_C9_witness :
    mixSolo.sample 1 0 rngA = mixSolo.sample 1 0 rngC ∧
    mixSolo.llks dsOne = mixSolo.llks dsOne ∧
    mixSolo.llk dsOne = mixSolo.llk dsOne ∧
    mixSolo.infer_cluster dsOne = mixSolo.infer_cluster dsOne ∧
    mixSolo.smooth dsOne = mixSolo.smooth dsOne ∧
    mixSolo.extrapolate dsOne = mixSolo.extrapolate dsOne ∧
    mixSolo.iterate dsOne = mixSolo.iterate dsOne :=
  claim_C9 mixSolo dsOne 1 0 rngA rngC (by
    intro j hj
    have hj0 : j = 0 := Nat.lt_one_iff.1 hj
    subst hj0
    rfl)

/-- C10: a single-component mixture always constructs, and its stored mixture
log-weight vector is exactly `[0]` regardless of the raw log-weight `w`. -/
theorem claim_C10 (w : ℝ) (m : PPCAModel) :
    PPCAMix.new [m] [w] = some ⟨m.output_size, [m], [0]⟩ := by
  simp [PPCAMix.new, dedupConsec, robust_log_softmax, listMax, sub_self,
    Real.exp_zero, Real.log_one]

end

end PpcaRs
